import Mathlib

/-!
# Verification of the `nametag` tag codec

Shallow embedding of `src/lib.rs` of the `nametag` repository.  Byte
sequences are modelled as `List Nat`, a tag (`type Tag = Vec<u8>`) as
`List Nat`, and the `BTreeSet<Tag>` as a strictly sorted (by the
lexicographic byte order of Rust's `Ord for Vec<u8>`) duplicate-free
list of tags.  Rust panics (out-of-range slicing) are modelled by
`Option`: `NameTag.new` returns `none` exactly when the Rust code
panics.
-/

namespace NametagProof

/-- Byte constants of the source (`OPEN_BRACE`, `CLOSE_BRACE`, `DOT`,
`SPACE`, `COMMA`). -/
def OPEN_BRACE : Nat := 91

def CLOSE_BRACE : Nat := 93

def DOT : Nat := 46

def SPACE : Nat := 32

def COMMA : Nat := 44

/-- Lexicographic order on byte vectors: the `Ord` instance of Rust's
`Vec<u8>` which drives `BTreeSet<Tag>`'s ordering. -/
def bytesLt : List Nat → List Nat → Bool
  | [], [] => false
  | [], _ :: _ => true
  | _ :: _, [] => false
  | a :: as, b :: bs => if a < b then true else if b < a then false else bytesLt as bs

/-- Ordered insertion into the sorted duplicate-free list modelling
`BTreeSet<Tag>::insert`. -/
def insertTag (t : List Nat) : List (List Nat) → List (List Nat)
  | [] => [t]
  | x :: xs =>
    if bytesLt t x then t :: x :: xs
    else if bytesLt x t then x :: insertTag t xs
    else x :: xs

/-- The codec instance: the Rust `NameTag` struct.  The source field
names are the Lean keywords for the name prior to the tag segment and
the name after it, so they are rendered here as `pre` and `suf`; `tags`
is the `BTreeSet<Tag>`, held as its strictly ascending list of
elements. -/
structure NameTag where
  pre : List Nat
  suf : List Nat
  tags : List (List Nat)
  deriving DecidableEq, Repr

/-- The per-byte change of `level` in `NameTag::get_tag_bounds`. -/
def braceDelta (ch : Nat) : Int :=
  if ch = OPEN_BRACE then 1 else if ch = CLOSE_BRACE then -1 else 0

/-- Loop body of `NameTag::get_tag_bounds`.  At the start of each
iteration of the Rust loop `last_level == level` holds, so a single
`level` accumulator (of `Int`: it may go negative) suffices;
`ub` is `upper_bound`. -/
def boundsGo : List Nat → Nat → Int → Nat → Option (Nat × Nat)
  | [], _, _, _ => none
  | ch :: rest, i, level, ub =>
    if level > level + braceDelta ch then
      some ((if level < level + braceDelta ch then i else ub), i + 1)
    else boundsGo rest (i + 1) (level + braceDelta ch) (if level < level + braceDelta ch then i else ub)

/-- `NameTag::get_tag_bounds`. -/
def getTagBounds (data : List Nat) : Option (Nat × Nat) :=
  boundsGo data 0 0 0

/-- `NameTag::get_ext_bound`: index of the first `.` byte, else the
length of the name. -/
def getExtBound : List Nat → Nat
  | [] => 0
  | ch :: rest => if ch = DOT then 0 else getExtBound rest + 1

/-- Loop of `NameTag::parse_tags`: splits on `COMMA | SPACE`, inserting
each non-empty buffer into the set. -/
def parseGo (tags : List (List Nat)) (buffer : List Nat) : List Nat → List (List Nat)
  | [] => if 0 < buffer.length then insertTag buffer tags else tags
  | ch :: rest =>
    if ch = COMMA ∨ ch = SPACE then
      if buffer.length ≠ 0 then parseGo (insertTag buffer tags) [] rest
      else parseGo tags [] rest
    else parseGo tags (buffer ++ [ch]) rest

/-- `NameTag::parse_tags` (the `&mut BTreeSet` is passed explicitly). -/
def parseTags (tags : List (List Nat)) (data : List Nat) : List (List Nat) :=
  parseGo tags [] data

/-- Rust slice indexing `&data[lo..hi]`: panics (here `none`) unless
`lo ≤ hi ≤ data.len()`. -/
def sliceRange (data : List Nat) (lo hi : Nat) : Option (List Nat) :=
  if lo ≤ hi ∧ hi ≤ data.length then some ((data.drop lo).take (hi - lo)) else none

/-- `NameTag::new`.  Returns `none` exactly when the Rust code panics
on the slice `&data[upper + 1..lower - 1]` (the indices `..upper` and
`lower..` are always in range, so those slices are total). -/
def NameTag.new (data : List Nat) : Option NameTag :=
  match getTagBounds data with
  | some (upper, lower) =>
    match sliceRange data (upper + 1) (lower - 1) with
    | some seg => some ⟨data.take upper, data.drop lower, parseTags [] seg⟩
    | none => none
  | none =>
    let split := getExtBound data
    some ⟨data.take split, data.drop split, []⟩

/-- `NameTag::add_tag`. -/
def NameTag.addTag (nt : NameTag) (t : List Nat) : NameTag :=
  { nt with tags := insertTag t nt.tags }

/-- `NameTag::remove_tag` (`BTreeSet::remove`; on a duplicate-free list
this is filtering the element out). -/
def NameTag.removeTag (nt : NameTag) (t : List Nat) : NameTag :=
  { nt with tags := nt.tags.filter (fun x => x != t) }

/-- `NameTag::clear_tags`. -/
def NameTag.clearTags (nt : NameTag) : NameTag :=
  { nt with tags := [] }

/-- `NameTag::get_tags`: the `BTreeSet` iterator, i.e. the ascending
list of elements. -/
def NameTag.getTags (nt : NameTag) : List (List Nat) :=
  nt.tags

/-- `From<NameTag> for Vec<u8>`: serialization.  The tag segment is the
source's `enumerate`/`flat_map` chain appending a `SPACE` after every
tag but the last. -/
def intoBytes (nt : NameTag) : List Nat :=
  let tagLen := nt.tags.length
  if tagLen = 0 then nt.pre ++ nt.suf
  else
    nt.pre ++ [OPEN_BRACE] ++
      (nt.tags.enum.flatMap fun p => if p.1 + 1 = tagLen then p.2 else p.2 ++ [SPACE]) ++
      [CLOSE_BRACE] ++ nt.suf

/-- A mutation request against a codec instance. -/
inductive TagOp where
  | add : List Nat → TagOp
  | remove : List Nat → TagOp
  | clear : TagOp
  deriving DecidableEq, Repr

/-- Apply one mutation. -/
def applyOp (nt : NameTag) : TagOp → NameTag
  | .add t => nt.addTag t
  | .remove t => nt.removeTag t
  | .clear => nt.clearTags

/-! ## UTF-8 model for `TryFrom<NameTag> for String`

`String::from_utf8` of the Rust standard library: strict UTF-8
validation (continuation bytes `80..BF`, no overlongs, no surrogates,
at most `U+10FFFF`).  Text is modelled as its list of unicode scalar
values. -/

/-- A continuation byte `80..BF`. -/
def isCont (b : Nat) : Bool := 0x80 ≤ b && b < 0xC0

/-- Decode one UTF-8 encoded scalar value from the head of the buffer,
returning it with the remaining bytes; `none` on any ill-formed
sequence. -/
def decodeOne : List Nat → Option (Nat × List Nat)
  | [] => none
  | b0 :: rest =>
    if b0 < 0x80 then some (b0, rest)
    else if b0 < 0xC2 then none
    else if b0 < 0xE0 then
      match rest with
      | b1 :: r => if isCont b1 then some ((b0 - 0xC0) * 64 + (b1 - 0x80), r) else none
      | [] => none
    else if b0 < 0xF0 then
      match rest with
      | b1 :: b2 :: r =>
        let c := (b0 - 0xE0) * 4096 + (b1 - 0x80) * 64 + (b2 - 0x80)
        if isCont b1 && isCont b2 && decide (0x800 ≤ c) && !decide (0xD800 ≤ c ∧ c < 0xE000)
        then some (c, r) else none
      | _ => none
    else if b0 < 0xF5 then
      match rest with
      | b1 :: b2 :: b3 :: r =>
        let c := (b0 - 0xF0) * 262144 + (b1 - 0x80) * 4096 + (b2 - 0x80) * 64 + (b3 - 0x80)
        if isCont b1 && isCont b2 && isCont b3 && decide (0x10000 ≤ c) && decide (c < 0x110000)
        then some (c, r) else none
      | _ => none
    else none


/-- Full UTF-8 decoding (`String::from_utf8`), with the byte count as
structural fuel; one scalar value is decoded per step, so `length bs`
steps suffice. -/
def utf8DecodeFuel : Nat → List Nat → Option (List Nat)
  | _, [] => some []
  | 0, _ :: _ => none
  | fuel + 1, b0 :: rest =>
    match decodeOne (b0 :: rest) with
    | some (c, r) => (utf8DecodeFuel fuel r).map (fun cs => c :: cs)
    | none => none

/-- Full UTF-8 decoding (`String::from_utf8`): the scalar-value list,
or `none` if the bytes are ill-formed. -/
def utf8Decode (bs : List Nat) : Option (List Nat) :=
  utf8DecodeFuel bs.length bs


/-- `TryFrom<NameTag> for String`: serialize, then validate as UTF-8;
`none` models the `Err` case, and the successful value is the decoded
text (its scalar values). -/
def tryIntoString (nt : NameTag) : Option (List Nat) :=
  utf8Decode (intoBytes nt)

/-- A unicode scalar value: any code point except the surrogates. -/
def ValidScalar (c : Nat) : Prop := c < 0xD800 ∨ (0xE000 ≤ c ∧ c < 0x110000)

instance : DecidablePred ValidScalar := fun _ => by unfold ValidScalar; infer_instance

/-- Standard UTF-8 encoding of one scalar value. -/
def utf8EncodeChar (c : Nat) : List Nat :=
  if c < 0x80 then [c]
  else if c < 0x800 then [0xC0 + c / 64, 0x80 + c % 64]
  else if c < 0x10000 then [0xE0 + c / 4096, 0x80 + c / 64 % 64, 0x80 + c % 64]
  else [0xF0 + c / 262144, 0x80 + c / 4096 % 64, 0x80 + c / 64 % 64, 0x80 + c % 64]

/-- Standard UTF-8 encoding of a scalar-value sequence. -/
def utf8Encode (cps : List Nat) : List Nat :=
  cps.flatMap utf8EncodeChar

/-- Being valid UTF-8 text, stated independently of the decoder: the
bytes are the encoding of some sequence of unicode scalar values. -/
def ValidUtf8 (bs : List Nat) : Prop :=
  ∃ cps : List Nat, (∀ c ∈ cps, ValidScalar c) ∧ utf8Encode cps = bs

/-! ## Spec-side definitions

Definitions following the wording of the specification (or of an
amended claim), to be compared with the source-translated functions
above. -/

/-- Index of the first `CLOSE_BRACE` byte, if any. -/
def firstCloseIdx : List Nat → Option Nat
  | [] => none
  | ch :: rest => if ch = CLOSE_BRACE then some 0 else (firstCloseIdx rest).map (· + 1)

/-- Index of the last `OPEN_BRACE` byte, if any. -/
def lastOpenIdx : List Nat → Option Nat
  | [] => none
  | ch :: rest =>
    match lastOpenIdx rest with
    | some j => some (j + 1)
    | none => if ch = OPEN_BRACE then some 0 else none

/-- The bounds the source code actually computes (amended claim):
`lower` is one past the first `]` byte, `upper` the index of the last
`[` before it (0 when there is none); no span without a `]`. -/
def boundsFirstClose (data : List Nat) : Option (Nat × Nat) :=
  match firstCloseIdx data with
  | none => none
  | some k => some ((lastOpenIdx (data.take k)).getD 0, k + 1)

/-- Modelled from the spec's words (§4.1 step 1): `upper` is the index
of the first character whose opening raises the depth from 0 to 1,
`lower` the index after the character that returns the depth to 0, and
a span exists only if the counter returns to 0 strictly after having
gone positive. -/
def specBoundsGo : List Nat → Nat → Int → Option Nat → Option (Nat × Nat)
  | [], _, _, _ => none
  | ch :: rest, i, depth, upper =>
    let depth' := depth + (if ch = OPEN_BRACE then 1 else if ch = CLOSE_BRACE then -1 else 0)
    let upper' := if depth = 0 ∧ depth' = 1 then some i else upper
    match upper' with
    | some u => if depth' = 0 then some (u, i + 1) else specBoundsGo rest (i + 1) depth' upper'
    | none => specBoundsGo rest (i + 1) depth' upper'

/-- Modelled from the spec's words: the bracket-span rule as the spec
states it. -/
def specTagBounds (data : List Nat) : Option (Nat × Nat) :=
  specBoundsGo data 0 0 none

/-- A separator byte of the tag segment: the source's `COMMA | SPACE`
match. -/
def isSep (ch : Nat) : Bool := ch = COMMA || ch = SPACE

/-- Split a segment into the tokens between separator runs, discarding
empty tokens (spec-side description of tag parsing). -/
def splitGo (buf : List Nat) : List Nat → List (List Nat)
  | [] => if buf = [] then [] else [buf]
  | ch :: rest =>
    if isSep ch then (if buf = [] then splitGo [] rest else buf :: splitGo [] rest)
    else splitGo (buf ++ [ch]) rest

/-- The surviving tokens of a tag segment. -/
def splitTokens (data : List Nat) : List (List Nat) :=
  splitGo [] data

/-- Join byte vectors with a single `SPACE` between consecutive
entries (spec-side description of the serialized tag list). -/
def joinSpace : List (List Nat) → List Nat
  | [] => []
  | [t] => t
  | t :: ts => t ++ [SPACE] ++ joinSpace ts

/-- Modelled from the spec's words (§4.1 serialization): empty tag set
gives `prefix ++ suffix`; otherwise the bracketed, space-joined tag
list sits between them. -/
def specSerialize (nt : NameTag) : List Nat :=
  if nt.tags = [] then nt.pre ++ nt.suf
  else nt.pre ++ [OPEN_BRACE] ++ joinSpace nt.tags ++ [CLOSE_BRACE] ++ nt.suf

/-- The strict tag order as a proposition. -/
def tagLt (a b : List Nat) : Prop := bytesLt a b = true

instance : DecidableRel tagLt := fun _ _ => by unfold tagLt; infer_instance

/-- `TagOp.add` with a non-empty tag (trivially true for the other
operations). -/
def addNonempty : TagOp → Bool
  | .add t => !t.isEmpty
  | _ => true

/-- First-close/last-open description of the bounds loop, carrying the
loop's offset `i` and default upper bound `ub`. -/
def boundsSpecGo (data : List Nat) (i : Nat) (ub : Nat) : Option (Nat × Nat) :=
  match firstCloseIdx data with
  | none => none
  | some k =>
    some ((match lastOpenIdx (data.take k) with
           | some j => i + j
           | none => ub), i + k + 1)

/-- The nested-bracket test input `somefile[nottag [tagB tagA]].txt`
of the repository's own test suite. -/
def nestedInput : List Nat :=
  [115, 111, 109, 101, 102, 105, 108, 101, 91, 110, 111, 116, 116, 97, 103, 32,
   91, 116, 97, 103, 66, 32, 116, 97, 103, 65, 93, 93, 46, 116, 120, 116]

/-- Its expected serialization `somefile[nottag [tagA tagB]].txt`: outer
brackets kept, the innermost pair flattened and sorted. -/
def nestedOutput : List Nat :=
  [115, 111, 109, 101, 102, 105, 108, 101, 91, 110, 111, 116, 116, 97, 103, 32,
   91, 116, 97, 103, 65, 32, 116, 97, 103, 66, 93, 93, 46, 116, 120, 116]

/-- The unmatched-bracket test input `somefile[tagB tagA.txt`. -/
def unmatchedInput : List Nat :=
  [115, 111, 109, 101, 102, 105, 108, 101, 91, 116, 97, 103, 66, 32, 116, 97,
   103, 65, 46, 116, 120, 116]

/-! ## Helper lemmas -/

theorem decodeOne_length {bs : List Nat} {c : Nat} {r : List Nat}
    (h : decodeOne bs = some (c, r)) : r.length < bs.length := by
  match bs with
  | [] => simp [decodeOne] at h
  | b0 :: rest =>
    simp only [decodeOne] at h
    split at h
    · simp_all
    · split at h
      · exact absurd h (by simp)
      · split at h
        · match rest with
          | [] => simp at h
          | b1 :: r1 =>
            simp only at h
            split at h <;> simp_all
            omega
        · split at h
          · match rest with
            | [] => simp at h
            | [b1] => simp at h
            | b1 :: b2 :: r2 =>
              simp only at h
              split at h <;> simp_all
              omega
          · split at h
            · match rest with
              | [] => simp at h
              | [b1] => simp at h
              | [b1, b2] => simp at h
              | b1 :: b2 :: b3 :: r3 =>
                simp only at h
                split at h <;> simp_all
                omega
            · exact absurd h (by simp)

/-! ## Order lemmas for `bytesLt` -/

theorem bytesLt_irrefl (a : List Nat) : bytesLt a a = false := by
  induction a with
  | nil => rfl
  | cons x xs ih => simp [bytesLt, ih]

theorem bytesLt_trans (a : List Nat) : ∀ b c : List Nat,
    bytesLt a b = true → bytesLt b c = true → bytesLt a c = true := by
  induction a with
  | nil =>
    intro b c hab hbc
    cases b with
    | nil => simp [bytesLt] at hab
    | cons y ys =>
      cases c with
      | nil => simp [bytesLt] at hbc
      | cons u us => simp [bytesLt]
  | cons x xs ih =>
    intro b c hab hbc
    cases b with
    | nil => simp [bytesLt] at hab
    | cons y ys =>
      cases c with
      | nil => simp [bytesLt] at hbc
      | cons u us =>
        simp only [bytesLt] at hab hbc ⊢
        by_cases h1 : x < y
        · by_cases h2 : y < u
          · simp [show x < u by omega]
          · by_cases h3 : u < y
            · simp [h2, h3] at hbc
            · have hyu : y = u := by omega
              subst hyu
              simp [show x < y by omega]
        · by_cases h4 : y < x
          · simp [h1, h4] at hab
          · have hxy : x = y := by omega
            subst hxy
            simp only [h1, if_neg, if_false] at hab
            by_cases h2 : x < u
            · simp [h2]
            · by_cases h3 : u < x
              · simp [h2, h3] at hbc
              · have hxu : x = u := by omega
                subst hxu
                simp only [h2, if_neg, if_false] at hbc ⊢
                exact ih ys us hab hbc

theorem bytesLt_eq_of_not (a : List Nat) : ∀ b : List Nat,
    bytesLt a b = false → bytesLt b a = false → a = b := by
  induction a with
  | nil =>
    intro b hab _
    cases b with
    | nil => rfl
    | cons y ys => simp [bytesLt] at hab
  | cons x xs ih =>
    intro b hab hba
    cases b with
    | nil => simp [bytesLt] at hba
    | cons y ys =>
      simp only [bytesLt] at hab hba
      by_cases h1 : x < y
      · simp [h1] at hab
      · by_cases h2 : y < x
        · simp [h1, h2] at hba
        · have hxy : x = y := by omega
          subst hxy
          simp only [h1, h2, if_neg, if_false] at hab hba
          rw [ih ys hab hba]


theorem tagLt_trans : Transitive tagLt := fun _ _ _ hab hbc => bytesLt_trans _ _ _ hab hbc

/-! ## `insertTag` lemmas -/

theorem mem_insertTag {a t : List Nat} : ∀ {l : List (List Nat)},
    a ∈ insertTag t l ↔ a = t ∨ a ∈ l := by
  intro l
  induction l with
  | nil => simp [insertTag]
  | cons x xs ih =>
    simp only [insertTag]
    by_cases h1 : bytesLt t x
    · simp only [h1, if_pos, List.mem_cons]
    · by_cases h2 : bytesLt x t
      · simp only [h1, h2, Bool.false_eq_true, if_neg, if_pos, if_false, List.mem_cons, ih]
        tauto
      · have : t = x := bytesLt_eq_of_not t x (by simpa using h1) (by simpa using h2)
        subst this
        simp only [h1, h2, Bool.false_eq_true, if_neg, if_false, List.mem_cons]
        tauto

theorem pairwise_insertTag {t : List Nat} : ∀ {l : List (List Nat)},
    l.Pairwise tagLt → (insertTag t l).Pairwise tagLt := by
  intro l
  induction l with
  | nil => simp [insertTag, tagLt]
  | cons x xs ih =>
    intro hp
    rw [List.pairwise_cons] at hp
    obtain ⟨hx, hxs⟩ := hp
    simp only [insertTag]
    by_cases h1 : bytesLt t x
    · simp only [h1, if_pos]
      rw [List.pairwise_cons]
      refine ⟨?_, List.pairwise_cons.2 ⟨hx, hxs⟩⟩
      intro b hb
      rcases List.mem_cons.1 hb with hb | hb
      · subst hb; exact h1
      · exact tagLt_trans h1 (hx b hb)
    · by_cases h2 : bytesLt x t
      · simp only [h1, h2, if_neg, if_pos, Bool.not_eq_true]
        rw [List.pairwise_cons]
        refine ⟨?_, ih hxs⟩
        intro b hb
        rcases mem_insertTag.1 hb with hb | hb
        · subst hb; exact h2
        · exact hx b hb
      · simp only [h1, h2, if_neg, Bool.not_eq_true]
        exact List.pairwise_cons.2 ⟨hx, hxs⟩

/-! ## `parse_tags` versus token splitting -/

theorem isSep_iff {ch : Nat} : isSep ch = true ↔ ch = COMMA ∨ ch = SPACE := by
  simp [isSep]

theorem parseGo_eq_splitGo : ∀ (data : List Nat) (ts : List (List Nat)) (buf : List Nat),
    parseGo ts buf data = (splitGo buf data).foldl (fun acc t => insertTag t acc) ts := by
  intro data
  induction data with
  | nil =>
    intro ts buf
    simp only [parseGo, splitGo]
    by_cases h : buf = []
    · simp [h]
    · simp [h, List.length_pos.2 h]
  | cons ch rest ih =>
    intro ts buf
    simp only [parseGo, splitGo]
    by_cases hs : ch = COMMA ∨ ch = SPACE
    · have hs' : isSep ch = true := isSep_iff.2 hs
      simp only [hs, hs', if_pos, if_true]
      by_cases hb : buf = []
      · simp [hb, ih]
      · have : buf.length ≠ 0 := by simpa [List.length_eq_zero] using hb
        simp [hb, this, ih]
    · have hs' : isSep ch = false := by
        rw [Bool.eq_false_iff]
        intro htrue
        exact hs (isSep_iff.1 htrue)
      simp only [hs, hs', if_neg, if_false, Bool.false_eq_true]
      exact ih ts (buf ++ [ch])

theorem splitGo_tokens : ∀ (data buf : List Nat), (∀ c ∈ buf, isSep c = false) →
    ∀ t ∈ splitGo buf data, t ≠ [] ∧ ∀ c ∈ t, isSep c = false := by
  intro data
  induction data with
  | nil =>
    intro buf hbuf t ht
    simp only [splitGo] at ht
    by_cases hb : buf = []
    · simp [hb] at ht
    · rw [if_neg hb] at ht
      rw [List.mem_singleton] at ht
      subst ht
      exact ⟨hb, hbuf⟩
  | cons ch rest ih =>
    intro buf hbuf t ht
    simp only [splitGo] at ht
    by_cases hs : isSep ch = true
    · simp only [hs, if_pos, if_true] at ht
      by_cases hb : buf = []
      · simp only [hb, if_pos, if_true] at ht
        exact ih [] (by simp) t ht
      · rw [if_neg hb] at ht
        rcases List.mem_cons.1 ht with ht' | ht'
        · subst ht'; exact ⟨hb, hbuf⟩
        · exact ih [] (by simp) t ht'
    · simp only [hs, if_neg, Bool.false_eq_true, if_false] at ht
      refine ih (buf ++ [ch]) ?_ t ht
      intro c hc
      rcases List.mem_append.1 hc with hc | hc
      · exact hbuf c hc
      · rw [List.mem_singleton] at hc
        subst hc
        simpa using hs

theorem mem_foldl_insertTag {x : List Nat} : ∀ (toks : List (List Nat)) (ts : List (List Nat)),
    x ∈ toks.foldl (fun acc t => insertTag t acc) ts → x ∈ ts ∨ x ∈ toks := by
  intro toks
  induction toks with
  | nil => intro ts h; exact Or.inl h
  | cons t rest ih =>
    intro ts h
    rcases ih (insertTag t ts) h with h' | h'
    · rcases mem_insertTag.1 h' with h'' | h''
      · exact Or.inr (by simp [h''])
      · exact Or.inl h''
    · exact Or.inr (List.mem_cons_of_mem _ h')

theorem pairwise_foldl_insertTag : ∀ (toks : List (List Nat)) (ts : List (List Nat)),
    ts.Pairwise tagLt → (toks.foldl (fun acc t => insertTag t acc) ts).Pairwise tagLt := by
  intro toks
  induction toks with
  | nil => intro ts h; exact h
  | cons t rest ih => intro ts h; exact ih _ (pairwise_insertTag h)

theorem parseTags_pairwise {ts : List (List Nat)} (data : List Nat)
    (h : ts.Pairwise tagLt) : (parseTags ts data).Pairwise tagLt := by
  rw [parseTags, parseGo_eq_splitGo]
  exact pairwise_foldl_insertTag _ _ h

theorem parseTags_nonempty {ts : List (List Nat)} (data : List Nat)
    (h : ∀ x ∈ ts, x ≠ []) : ∀ x ∈ parseTags ts data, x ≠ [] := by
  intro x hx
  rw [parseTags, parseGo_eq_splitGo] at hx
  rcases mem_foldl_insertTag _ _ hx with h' | h'
  · exact h x h'
  · exact (splitGo_tokens data [] (by simp) x h').1

/-! ## Invariants of reachable instances -/

theorem new_tags_pairwise {data : List Nat} {nt : NameTag}
    (h : NameTag.new data = some nt) : nt.tags.Pairwise tagLt := by
  rw [NameTag.new] at h
  split at h
  · split at h
    · injection h with h'
      subst h'
      exact parseTags_pairwise _ (by simp)
    · exact absurd h (by simp)
  · injection h with h'
    subst h'
    simp

theorem new_tags_nonempty {data : List Nat} {nt : NameTag}
    (h : NameTag.new data = some nt) : ∀ x ∈ nt.tags, x ≠ [] := by
  rw [NameTag.new] at h
  split at h
  · split at h
    · injection h with h'
      subst h'
      exact parseTags_nonempty _ (by simp)
    · exact absurd h (by simp)
  · injection h with h'
    subst h'
    simp

theorem applyOp_pairwise {nt : NameTag} {op : TagOp}
    (h : nt.tags.Pairwise tagLt) : (applyOp nt op).tags.Pairwise tagLt := by
  cases op with
  | add t => exact pairwise_insertTag h
  | remove t => exact h.filter _
  | clear => simp [applyOp, NameTag.clearTags]

theorem applyOp_nonempty {nt : NameTag} {op : TagOp}
    (h : ∀ x ∈ nt.tags, x ≠ []) (hop : addNonempty op = true) :
    ∀ x ∈ (applyOp nt op).tags, x ≠ [] := by
  cases op with
  | add t =>
    intro x hx
    rcases mem_insertTag.1 hx with hx' | hx'
    · subst hx'
      simpa [addNonempty, List.isEmpty_iff] using hop
    · exact h x hx'
  | remove t =>
    intro x hx
    exact h x (List.mem_of_mem_filter hx)
  | clear => simp [applyOp, NameTag.clearTags]

theorem foldl_applyOp_pairwise {nt : NameTag} (ops : List TagOp)
    (h : nt.tags.Pairwise tagLt) : (ops.foldl applyOp nt).tags.Pairwise tagLt := by
  induction ops generalizing nt with
  | nil => exact h
  | cons op rest ih => exact ih (applyOp_pairwise h)

theorem foldl_applyOp_nonempty {nt : NameTag} (ops : List TagOp)
    (h : ∀ x ∈ nt.tags, x ≠ []) (hops : ∀ op ∈ ops, addNonempty op = true) :
    ∀ x ∈ (ops.foldl applyOp nt).tags, x ≠ [] := by
  induction ops generalizing nt with
  | nil => exact h
  | cons op rest ih =>
    exact ih (applyOp_nonempty h (hops op (by simp)))
      (fun o ho => hops o (List.mem_cons_of_mem _ ho))

/-- No mutation touches the name outside the tag segment. -/
theorem applyOp_frame (nt : NameTag) (op : TagOp) :
    (applyOp nt op).pre = nt.pre ∧ (applyOp nt op).suf = nt.suf := by
  cases op <;> simp [applyOp, NameTag.addTag, NameTag.removeTag, NameTag.clearTags]

/-! ## Characterization of `get_tag_bounds` -/

theorem boundsSpecGo_close (rest : List Nat) (i ub : Nat) :
    boundsSpecGo (CLOSE_BRACE :: rest) i ub = some (ub, i + 1) := by
  simp [boundsSpecGo, firstCloseIdx, lastOpenIdx]

theorem boundsSpecGo_open (rest : List Nat) (i ub : Nat) :
    boundsSpecGo (OPEN_BRACE :: rest) i ub = boundsSpecGo rest (i + 1) i := by
  simp only [boundsSpecGo, firstCloseIdx]
  rw [if_neg (by decide : ¬ OPEN_BRACE = CLOSE_BRACE)]
  cases hk : firstCloseIdx rest with
  | none => simp
  | some k =>
    simp only [Option.map_some']
    rw [List.take_succ_cons]
    simp only [lastOpenIdx]
    cases hj : lastOpenIdx (rest.take k) with
    | none =>
      simp only [Option.some.injEq, Prod.mk.injEq]
      refine ⟨?_, by omega⟩
      simp
    | some j =>
      simp only [Option.some.injEq, Prod.mk.injEq]
      refine ⟨?_, by omega⟩
      omega

theorem boundsSpecGo_other {ch : Nat} (h91 : ch ≠ OPEN_BRACE) (h93 : ch ≠ CLOSE_BRACE)
    (rest : List Nat) (i ub : Nat) :
    boundsSpecGo (ch :: rest) i ub = boundsSpecGo rest (i + 1) ub := by
  simp only [boundsSpecGo, firstCloseIdx]
  rw [if_neg h93]
  cases hk : firstCloseIdx rest with
  | none => simp
  | some k =>
    simp only [Option.map_some']
    rw [List.take_succ_cons]
    simp only [lastOpenIdx]
    cases hj : lastOpenIdx (rest.take k) with
    | none =>
      simp only [Option.some.injEq, Prod.mk.injEq]
      refine ⟨?_, by omega⟩
      simp [h91]
    | some j =>
      simp only [Option.some.injEq, Prod.mk.injEq]
      refine ⟨?_, by omega⟩
      omega

theorem braceDelta_open : braceDelta OPEN_BRACE = 1 := by decide

theorem braceDelta_close : braceDelta CLOSE_BRACE = -1 := by decide

theorem braceDelta_other {ch : Nat} (h91 : ch ≠ OPEN_BRACE) (h93 : ch ≠ CLOSE_BRACE) :
    braceDelta ch = 0 := by
  simp [braceDelta, h91, h93]

theorem boundsGo_eq : ∀ (data : List Nat) (i : Nat) (level : Int) (ub : Nat),
    boundsGo data i level ub = boundsSpecGo data i ub := by
  intro data
  induction data with
  | nil => intro i level ub; simp [boundsGo, boundsSpecGo, firstCloseIdx]
  | cons ch rest ih =>
    intro i level ub
    by_cases h93 : ch = CLOSE_BRACE
    · subst h93
      rw [boundsSpecGo_close]
      simp only [boundsGo, braceDelta_close]
      rw [if_pos (by omega : level > level + (-1)), if_neg (by omega : ¬ level < level + (-1))]
    · by_cases h91 : ch = OPEN_BRACE
      · subst h91
        rw [boundsSpecGo_open]
        simp only [boundsGo, braceDelta_open]
        rw [if_neg (by omega : ¬ level > level + 1), if_pos (by omega : level < level + 1)]
        exact ih (i + 1) (level + 1) i
      · rw [boundsSpecGo_other h91 h93]
        simp only [boundsGo, braceDelta_other h91 h93]
        rw [if_neg (by omega : ¬ level > level + 0), if_neg (by omega : ¬ level < level + 0)]
        exact ih (i + 1) (level + 0) ub

/-- `get_tag_bounds` finds the first `]` byte and the last `[` before
it (0 when there is none); it returns `none` iff no `]` occurs. -/
theorem getTagBounds_eq (data : List Nat) :
    getTagBounds data = boundsFirstClose data := by
  rw [getTagBounds, boundsGo_eq data 0 0 0, boundsSpecGo, boundsFirstClose]
  cases hk : firstCloseIdx data with
  | none => simp
  | some k =>
    simp only []
    cases hj : lastOpenIdx (data.take k) with
    | none => simp [Option.getD]
    | some j => simp [Option.getD]

theorem firstCloseIdx_none_iff (data : List Nat) :
    firstCloseIdx data = none ↔ CLOSE_BRACE ∉ data := by
  induction data with
  | nil => simp [firstCloseIdx]
  | cons ch rest ih =>
    simp only [firstCloseIdx, List.mem_cons]
    by_cases h : ch = CLOSE_BRACE
    · simp [h]
    · rw [if_neg h, Option.map_eq_none', ih]
      constructor
      · intro hneg hmem
        rcases hmem with hmem | hmem
        · exact h hmem.symm
        · exact hneg hmem
      · intro hneg hmem
        exact hneg (Or.inr hmem)

theorem firstCloseIdx_spec : ∀ (data : List Nat) (k : Nat), firstCloseIdx data = some k →
    k < data.length ∧ data.getD k 0 = CLOSE_BRACE ∧ CLOSE_BRACE ∉ data.take k := by
  intro data
  induction data with
  | nil => intro k h; simp [firstCloseIdx] at h
  | cons ch rest ih =>
    intro k h
    simp only [firstCloseIdx] at h
    by_cases hc : ch = CLOSE_BRACE
    · rw [if_pos hc] at h
      injection h with h'
      subst h'
      simp [hc]
    · rw [if_neg hc] at h
      rcases Option.map_eq_some'.1 h with ⟨k', hk', rfl⟩
      obtain ⟨h1, h2, h3⟩ := ih k' hk'
      refine ⟨by simpa using h1, by simpa using h2, ?_⟩
      rw [List.take_succ_cons]
      intro hmem
      rcases List.mem_cons.1 hmem with hmem | hmem
      · exact hc hmem.symm
      · exact h3 hmem

theorem lastOpenIdx_none_iff (l : List Nat) :
    lastOpenIdx l = none ↔ OPEN_BRACE ∉ l := by
  induction l with
  | nil => simp [lastOpenIdx]
  | cons ch rest ih =>
    simp only [lastOpenIdx, List.mem_cons]
    cases hr : lastOpenIdx rest with
    | some j =>
      simp only []
      constructor
      · intro h; exact absurd h (by simp)
      · intro h
        exact absurd (ih.2 fun hm => h (Or.inr hm)) (by simp [hr])
    | none =>
      by_cases h : ch = OPEN_BRACE
      · simp [h]
      · rw [if_neg h]
        simp only [ih] at hr
        constructor
        · intro _ hmem
          rcases hmem with hmem | hmem
          · exact h hmem.symm
          · exact hr hmem
        · intro _
          rfl

theorem lastOpenIdx_spec : ∀ (l : List Nat) (j : Nat), lastOpenIdx l = some j →
    j < l.length ∧ l.getD j 0 = OPEN_BRACE ∧ OPEN_BRACE ∉ l.drop (j + 1) := by
  intro l
  induction l with
  | nil => intro j h; simp [lastOpenIdx] at h
  | cons ch rest ih =>
    intro j h
    simp only [lastOpenIdx] at h
    cases hr : lastOpenIdx rest with
    | some j' =>
      rw [hr] at h
      injection h with h'
      subst h'
      obtain ⟨h1, h2, h3⟩ := ih j' hr
      exact ⟨by simpa using h1, by simpa using h2, by simpa using h3⟩
    | none =>
      rw [hr] at h
      by_cases hc : ch = OPEN_BRACE
      · rw [if_pos hc] at h
        injection h with h'
        subst h'
        refine ⟨by simp, by simp [hc], ?_⟩
        simpa using (lastOpenIdx_none_iff rest).1 hr
      · rw [if_neg hc] at h
        exact absurd h (by simp)

/-! ## Serialization format -/

theorem flatMap_enumFrom_join : ∀ (l : List (List Nat)) (n m : Nat), m = n + l.length →
    (List.enumFrom n l).flatMap (fun p => if p.1 + 1 = m then p.2 else p.2 ++ [SPACE]) =
      joinSpace l := by
  intro l
  induction l with
  | nil => intro n m _; simp [joinSpace]
  | cons t ts ih =>
    intro n m hm
    cases ts with
    | nil =>
      simp only [List.length_cons, List.length_nil] at hm
      simp [List.enumFrom, joinSpace, hm]
    | cons t' ts' =>
      rw [show List.enumFrom n (t :: t' :: ts') = (n, t) :: List.enumFrom (n + 1) (t' :: ts')
            from rfl,
          List.flatMap_cons]
      simp only []
      rw [if_neg (by simp at hm; omega)]
      rw [ih (n + 1) m (by simp at hm ⊢; omega)]
      rw [show joinSpace (t :: t' :: ts') = t ++ [SPACE] ++ joinSpace (t' :: ts') from rfl]

/-- The source's `enumerate`/`flat_map` serialization of the tag list
is exactly the space-joined form of the spec. -/
theorem intoBytes_eq_specSerialize (nt : NameTag) : intoBytes nt = specSerialize nt := by
  rw [intoBytes, specSerialize]
  by_cases h : nt.tags = []
  · simp [h]
  · have hlen : nt.tags.length ≠ 0 := by simpa [List.length_eq_zero] using h
    rw [if_neg hlen, if_neg h]
    rw [List.enum, flatMap_enumFrom_join nt.tags 0 nt.tags.length (by simp)]

/-! ## UTF-8 decoder correctness -/

theorem decodeOne_sound : ∀ (bs : List Nat) (c : Nat) (r : List Nat),
    decodeOne bs = some (c, r) → ValidScalar c ∧ bs = utf8EncodeChar c ++ r := by
  intro bs c r h
  match bs with
  | [] => simp [decodeOne] at h
  | b0 :: rest =>
    simp only [decodeOne] at h
    split at h
    case isTrue h0 =>
      obtain ⟨rfl, rfl⟩ : b0 = c ∧ rest = r := by simpa using h
      refine ⟨Or.inl (by omega), ?_⟩
      rw [utf8EncodeChar, if_pos h0]
      simp
    case isFalse h0 =>
      split at h
      case isTrue h1 => simp at h
      case isFalse h1 =>
        split at h
        case isTrue h2 =>
          match rest with
          | [] => simp at h
          | b1 :: r1 =>
            simp only [] at h
            split at h
            case isTrue hc1 =>
              simp only [isCont, Bool.and_eq_true, decide_eq_true_eq] at hc1
              obtain ⟨rfl, rfl⟩ : (b0 - 0xC0) * 64 + (b1 - 0x80) = c ∧ r1 = r := by
                simpa using h
              refine ⟨Or.inl (by omega), ?_⟩
              rw [utf8EncodeChar, if_neg (by omega), if_pos (by omega)]
              simp only [List.cons_append, List.nil_append, List.cons.injEq]
              refine ⟨by omega, by omega, trivial⟩
            case isFalse hc1 => simp at h
        case isFalse h2 =>
          split at h
          case isTrue h3 =>
            match rest with
            | [] => simp at h
            | [b1] => simp at h
            | b1 :: b2 :: r2 =>
              simp only [] at h
              split at h
              case isTrue hc1 =>
                simp only [isCont, Bool.and_eq_true, Bool.not_eq_true', decide_eq_true_eq,
                  decide_eq_false_iff_not, not_and, not_lt] at hc1
                obtain ⟨⟨⟨⟨hb1, hb2⟩, hb3⟩, hb4⟩, hb5⟩ := hc1
                obtain ⟨rfl, rfl⟩ :
                    (b0 - 0xE0) * 4096 + (b1 - 0x80) * 64 + (b2 - 0x80) = c ∧ r2 = r := by
                  simpa using h
                refine ⟨?_, ?_⟩
                · unfold ValidScalar
                  omega
                · rw [utf8EncodeChar, if_neg (by omega), if_neg (by omega), if_pos (by omega)]
                  simp only [List.cons_append, List.nil_append, List.cons.injEq]
                  refine ⟨by omega, by omega, by omega, trivial⟩
              case isFalse hc1 => simp at h
          case isFalse h3 =>
            split at h
            case isTrue h4 =>
              match rest with
              | [] => simp at h
              | [b1] => simp at h
              | [b1, b2] => simp at h
              | b1 :: b2 :: b3 :: r3 =>
                simp only [] at h
                split at h
                case isTrue hc1 =>
                  simp only [isCont, Bool.and_eq_true, decide_eq_true_eq] at hc1
                  obtain ⟨⟨⟨⟨hb1, hb2⟩, hb3⟩, hb4⟩, hb5⟩ := hc1
                  obtain ⟨rfl, rfl⟩ :
                      (b0 - 0xF0) * 262144 + (b1 - 0x80) * 4096 + (b2 - 0x80) * 64 +
                        (b3 - 0x80) = c ∧ r3 = r := by
                    simpa using h
                  refine ⟨Or.inr (by omega), ?_⟩
                  rw [utf8EncodeChar, if_neg (by omega), if_neg (by omega), if_neg (by omega)]
                  simp only [List.cons_append, List.nil_append, List.cons.injEq]
                  refine ⟨by omega, by omega, by omega, by omega, trivial⟩
                case isFalse hc1 => simp at h
            case isFalse h4 => simp at h

theorem decodeOne_encode (c : Nat) (r : List Nat) (hv : ValidScalar c) :
    decodeOne (utf8EncodeChar c ++ r) = some (c, r) := by
  rw [utf8EncodeChar]
  by_cases h0 : c < 0x80
  · rw [if_pos h0]
    simp only [List.cons_append, List.nil_append, decodeOne]
    rw [if_pos h0]
  · rw [if_neg h0]
    by_cases h1 : c < 0x800
    · rw [if_pos h1]
      simp only [List.cons_append, List.nil_append, decodeOne]
      rw [if_neg (by omega), if_neg (by omega), if_pos (by omega)]
      rw [if_pos (by simp [isCont]; omega)]
      simp only [Option.some.injEq, Prod.mk.injEq]
      exact ⟨by omega, trivial⟩
    · rw [if_neg h1]
      by_cases h2 : c < 0x10000
      · rw [if_pos h2]
        have hns : ¬ (0xD800 ≤ c ∧ c < 0xE000) := by
          unfold ValidScalar at hv
          omega
        simp only [List.cons_append, List.nil_append, decodeOne]
        rw [if_neg (by omega), if_neg (by omega), if_neg (by omega), if_pos (by omega)]
        rw [if_pos (by simp [isCont]; omega)]
        simp only [Option.some.injEq, Prod.mk.injEq]
        exact ⟨by omega, trivial⟩
      · rw [if_neg h2]
        have hc : c < 0x110000 := by
          unfold ValidScalar at hv
          omega
        simp only [List.cons_append, List.nil_append, decodeOne]
        rw [if_neg (by omega), if_neg (by omega), if_neg (by omega), if_neg (by omega),
          if_pos (by omega)]
        rw [if_pos (by simp [isCont]; omega)]
        simp only [Option.some.injEq, Prod.mk.injEq]
        exact ⟨by omega, trivial⟩

theorem utf8Decode_nil : utf8Decode [] = some [] := rfl

theorem utf8DecodeFuel_mono : ∀ (f1 f2 : Nat) (bs : List Nat), bs.length ≤ f1 →
    bs.length ≤ f2 → utf8DecodeFuel f1 bs = utf8DecodeFuel f2 bs := by
  intro f1
  induction f1 with
  | zero =>
    intro f2 bs hb1 hb2
    cases bs with
    | nil => cases f2 <;> rfl
    | cons b0 rest => simp at hb1
  | succ f1 ih =>
    intro f2 bs hb1 hb2
    cases bs with
    | nil => cases f2 <;> rfl
    | cons b0 rest =>
      cases f2 with
      | zero => simp at hb2
      | succ f2 =>
        simp only [utf8DecodeFuel]
        cases hdec : decodeOne (b0 :: rest) with
        | none => rfl
        | some pr =>
          obtain ⟨c, r⟩ := pr
          have hlt : r.length < rest.length + 1 := by
            simpa using decodeOne_length hdec
          simp only []
          rw [ih f2 r (by simp at hb1; omega) (by simp at hb2; omega)]

theorem utf8DecodeFuel_eq (fuel : Nat) (bs : List Nat) (hb : bs.length ≤ fuel) :
    utf8DecodeFuel fuel bs = utf8Decode bs :=
  utf8DecodeFuel_mono fuel bs.length bs hb le_rfl

theorem utf8Decode_step_some {bs : List Nat} {c : Nat} {r : List Nat}
    (h : decodeOne bs = some (c, r)) :
    utf8Decode bs = (utf8Decode r).map (fun cs => c :: cs) := by
  cases bs with
  | nil => simp [decodeOne] at h
  | cons b0 rest =>
    have hlt : r.length < rest.length + 1 := by
      simpa using decodeOne_length h
    rw [utf8Decode]
    simp only [List.length_cons, utf8DecodeFuel, h]
    rw [utf8DecodeFuel_eq rest.length r (by omega)]

theorem utf8Decode_step_none {bs : List Nat} (h : decodeOne bs = none) (hne : bs ≠ []) :
    utf8Decode bs = none := by
  cases bs with
  | nil => exact absurd rfl hne
  | cons b0 rest =>
    rw [utf8Decode]
    simp only [List.length_cons, utf8DecodeFuel, h]

theorem utf8Decode_sound_aux : ∀ (n : Nat) (bs : List Nat), bs.length ≤ n →
    ∀ cps : List Nat, utf8Decode bs = some cps →
      (∀ c ∈ cps, ValidScalar c) ∧ utf8Encode cps = bs := by
  intro n
  induction n with
  | zero =>
    intro bs hb cps h
    have hnil : bs = [] := by
      cases bs with
      | nil => rfl
      | cons x xs => simp at hb
    subst hnil
    rw [utf8Decode_nil] at h
    injection h with h'
    subst h'
    simp [utf8Encode]
  | succ n ihn =>
    intro bs hb cps h
    cases hdec : decodeOne bs with
    | none =>
      by_cases hnil : bs = []
      · subst hnil
        rw [utf8Decode_nil] at h
        injection h with h'
        subst h'
        simp [utf8Encode]
      · rw [utf8Decode_step_none hdec hnil] at h
        cases h
    | some pr =>
      obtain ⟨c, r⟩ := pr
      rw [utf8Decode_step_some hdec] at h
      cases hrec : utf8Decode r with
      | none =>
        rw [hrec] at h
        cases h
      | some cs =>
        rw [hrec] at h
        injection h with h'
        subst h'
        have hlt : r.length < bs.length := decodeOne_length hdec
        obtain ⟨hv, henc⟩ := ihn r (by omega) cs hrec
        obtain ⟨hvc, hbs⟩ := decodeOne_sound bs c r hdec
        constructor
        · intro x hx
          rcases List.mem_cons.1 hx with hx | hx
          · subst hx; exact hvc
          · exact hv x hx
        · rw [utf8Encode, List.flatMap_cons]
          rw [show cs.flatMap utf8EncodeChar = utf8Encode cs from rfl, henc, hbs]

theorem utf8Decode_sound {bs cps : List Nat} (h : utf8Decode bs = some cps) :
    (∀ c ∈ cps, ValidScalar c) ∧ utf8Encode cps = bs :=
  utf8Decode_sound_aux bs.length bs le_rfl cps h

theorem utf8Decode_complete : ∀ (cps : List Nat), (∀ c ∈ cps, ValidScalar c) →
    utf8Decode (utf8Encode cps) = some cps := by
  intro cps
  induction cps with
  | nil => intro _; simpa [utf8Encode] using utf8Decode_nil
  | cons c cs ih =>
    intro hv
    rw [utf8Encode, List.flatMap_cons]
    rw [utf8Decode_step_some
      (decodeOne_encode c (cs.flatMap utf8EncodeChar) (hv c (by simp)))]
    rw [show cs.flatMap utf8EncodeChar = utf8Encode cs from rfl]
    rw [ih fun x hx => hv x (List.mem_cons_of_mem _ hx)]
    rfl

/-- The decoder succeeds exactly on valid UTF-8. -/
theorem utf8Decode_eq_none_iff (bs : List Nat) :
    utf8Decode bs = none ↔ ¬ ValidUtf8 bs := by
  constructor
  · intro h hvalid
    obtain ⟨cps, hv, henc⟩ := hvalid
    rw [← henc, utf8Decode_complete cps hv] at h
    cases h
  · intro h
    cases hdec : utf8Decode bs with
    | none => rfl
    | some cps =>
      obtain ⟨hv, henc⟩ := utf8Decode_sound hdec
      exact absurd ⟨cps, hv, henc⟩ h



/-! ## Claim theorems -/

/-- Two distinct strict tags are distinct lists. -/
theorem tagLt_ne {a b : List Nat} (h : tagLt a b) : a ≠ b := by
  intro he
  subst he
  simp [tagLt, bytesLt_irrefl] at h

/-- `getD` of a take is `getD` of the list below the cut. -/
theorem getD_take_of_lt : ∀ (l : List Nat) (k j d : Nat), j < k →
    (l.take k).getD j d = l.getD j d := by
  intro l
  induction l with
  | nil => intro k j d h; simp
  | cons x xs ih =>
    intro k j d h
    cases k with
    | zero => omega
    | succ k9 =>
      rw [List.take_succ_cons]
      cases j with
      | zero => rfl
      | succ j9 =>
        simp only [List.getD_cons_succ]
        exact ih k9 j9 d (by omega)

/-- C1: the spec claims construction (`NameTag::new` / parsing) is a
total function that never fails or aborts, even on close-before-open
bracket sequences.  In fact, on the input `"]"` the code computes
bounds `(0, 1)` and evaluates the slice `&data[1..0]`, whose start
exceeds its end: a Rust panic, modelled here as `none`. -/
theorem c1_new_panics_on_close_bracket : NameTag.new [CLOSE_BRACE] = none := by decide

/-- C2 counterexample: the claim says a span is recognized only when
the depth counter returns to 0 strictly after having gone positive,
with `upper` the first 0-to-1 raise.  `specTagBounds` formalizes those
words.  On `"a]"` the spec recognizes nothing but the code returns
`(0, 2)`; on `"[a[b]c]"` the spec picks the outer pair `(0, 7)` but the
code picks the inner pair `(2, 5)`. -/
theorem c2_spec_bounds_counterexample :
    specTagBounds [97, 93] = none ∧ getTagBounds [97, 93] = some (0, 2) ∧
      specTagBounds [91, 97, 91, 98, 93, 99, 93] = some (0, 7) ∧
      getTagBounds [91, 97, 91, 98, 93, 99, 93] = some (2, 5) := by decide

/-- C2 amended: the parse step recognizes a span iff the input contains
a `]` byte at all (the depth counter need not have gone positive);
`lower` is one past the first `]`, and `upper` is the index of the last
`[` before that `]`, or 0 when there is none. -/
theorem c2_bounds_first_close_amended (data : List Nat) :
    getTagBounds data = boundsFirstClose data ∧
      (getTagBounds data = none ↔ CLOSE_BRACE ∉ data) := by
  refine ⟨getTagBounds_eq data, ?_⟩
  rw [getTagBounds_eq data, boundsFirstClose]
  cases hk : firstCloseIdx data with
  | none =>
    simp only []
    exact iff_of_true trivial ((firstCloseIdx_none_iff data).1 hk)
  | some k =>
    simp only []
    constructor
    · intro hcontra
      cases hcontra
    · intro hmem
      rw [(firstCloseIdx_none_iff data).2 hmem] at hk
      cases hk

/-- C2 amended, at a concrete input. -/
theorem c2_bounds_witness :
    getTagBounds [91, 97, 93] = boundsFirstClose [91, 97, 93] ∧
      (getTagBounds [91, 97, 93] = none ↔ CLOSE_BRACE ∉ [91, 97, 93]) :=
  c2_bounds_first_close_amended [91, 97, 93]

/-- C3 counterexample: the claim includes inputs whose `]` is not
preceded by a matching `[` in the round-trip identity.  On `"a]"` the
code recognizes the span `(0, 2)`, so the parsed instance has empty
name parts and no tags, and serializes to the empty byte string, not
back to `"a]"`. -/
theorem c3_round_trip_counterexample :
    (NameTag.new [97, 93]).map intoBytes = some [] ∧
      (NameTag.new [97, 93]).map intoBytes ≠ some [97, 93] := by decide

/-- C3 amended: for any input containing no `]` byte (in particular
any input with an unclosed `[`), parsing succeeds and serializing the
freshly parsed instance returns the input byte-for-byte. -/
theorem c3_round_trip_no_close_amended (data : List Nat) (h : CLOSE_BRACE ∉ data) :
    (NameTag.new data).map intoBytes = some data := by
  have hb : getTagBounds data = none := by
    rw [getTagBounds_eq, boundsFirstClose, (firstCloseIdx_none_iff data).2 h]
  rw [NameTag.new, hb]
  simp only [Option.map_some']
  rw [intoBytes]
  simp

/-- C3 amended at the repository's unmatched-bracket test input. -/
theorem c3_round_trip_witness :
    (NameTag.new unmatchedInput).map intoBytes = some unmatchedInput :=
  c3_round_trip_no_close_amended unmatchedInput (by decide)

/-- C4 counterexample: the claim says the tag set never contains an
empty tag, even after `add_tag` with a zero-length tag.  But `add_tag`
inserts unconditionally: adding `""` to the instance parsed from `"a"`
stores the empty tag. -/
theorem c4_empty_tag_counterexample :
    (NameTag.new [97]).map (fun nt => (nt.addTag []).tags) = some [[]] := by decide

/-- C4 amended: after parsing any input and any sequence of mutations,
the tag set never holds two equal tags; and provided every `add_tag` in
the sequence carries a non-empty tag, it never holds an empty tag
(parsing alone never stores one). -/
theorem c4_tagset_invariant_amended (data : List Nat) (nt0 : NameTag) (ops : List TagOp)
    (h : NameTag.new data = some nt0) :
    (ops.foldl applyOp nt0).tags.Nodup ∧
      ((∀ op ∈ ops, addNonempty op = true) →
        ∀ t ∈ (ops.foldl applyOp nt0).tags, t ≠ []) := by
  constructor
  · exact List.Pairwise.imp (fun hab => tagLt_ne hab)
      (foldl_applyOp_pairwise ops (new_tags_pairwise h))
  · intro hops
    exact foldl_applyOp_nonempty ops (new_tags_nonempty h) hops

/-- C4 amended at a concrete instance of `"a[x y].b"` plus one add. -/
theorem c4_tagset_witness :
    (List.foldl applyOp (⟨[97], [46, 98], [[120], [121]]⟩ : NameTag)
        [TagOp.add [122]]).tags.Nodup ∧
      ((∀ op ∈ [TagOp.add [122]], addNonempty op = true) →
        ∀ t ∈ (List.foldl applyOp (⟨[97], [46, 98], [[120], [121]]⟩ : NameTag)
          [TagOp.add [122]]).tags, t ≠ []) :=
  c4_tagset_invariant_amended [97, 91, 120, 32, 121, 93, 46, 98] _ _ (by decide)

/-- C5: serialization of any reachable instance is `prefix ++ suffix`
when the tag set is empty (no bracket bytes at all), and otherwise
`prefix ++ "[" ++ tags-in-ascending-order-joined-by-one-space ++ "]"
++ suffix`; the instance's tag list is indeed ascending. -/
theorem c5_serialize_format (data : List Nat) (nt0 : NameTag) (ops : List TagOp)
    (h : NameTag.new data = some nt0) :
    intoBytes (ops.foldl applyOp nt0) = specSerialize (ops.foldl applyOp nt0) ∧
      (ops.foldl applyOp nt0).tags.Pairwise tagLt :=
  ⟨intoBytes_eq_specSerialize _, foldl_applyOp_pairwise ops (new_tags_pairwise h)⟩

/-- C5 at the instance parsed from `"name[].txt"` (whose empty bracket
segment is dropped on output). -/
theorem c5_serialize_witness :
    intoBytes (⟨[110, 97, 109, 101], [46, 116, 120, 116], []⟩ : NameTag) =
        specSerialize (⟨[110, 97, 109, 101], [46, 116, 120, 116], []⟩ : NameTag) ∧
      (⟨[110, 97, 109, 101], [46, 116, 120, 116], []⟩ : NameTag).tags.Pairwise tagLt :=
  c5_serialize_format [110, 97, 109, 101, 91, 93, 46, 116, 120, 116] _ [] (by decide)

/-- C6: however the instance's tags were obtained (parsed from any
input, then any sequence of adds, removes and clears in any order),
`get_tags` yields them in strictly ascending byte order. -/
theorem c6_get_tags_sorted (data : List Nat) (nt0 : NameTag) (ops : List TagOp)
    (h : NameTag.new data = some nt0) :
    ((ops.foldl applyOp nt0).getTags).Pairwise tagLt :=
  foldl_applyOp_pairwise ops (new_tags_pairwise h)

/-- C6 at `"m"` with two adds in descending order. -/
theorem c6_get_tags_witness :
    ((List.foldl applyOp (⟨[109], [], []⟩ : NameTag)
      [TagOp.add [98], TagOp.add [97]]).getTags).Pairwise tagLt :=
  c6_get_tags_sorted [109] _ _ (by decide)

/-- C7 counterexample: the claim says tag parsing splits on any run of
whitespace-or-comma bytes.  The code only splits on space (0x20) and
comma (0x2C): a tab byte (0x09) is kept inside the tag, so `"a\tb"`
parses to one tag, not to `{a, b}`. -/
theorem c7_separator_counterexample :
    parseTags [] [97, 9, 98] = [[97, 9, 98]] ∧
      parseTags [] [97, 9, 98] ≠ [[97], [98]] := by decide

/-- C7 amended: tag parsing splits the segment on any run of space or
comma bytes (only those two separators), produces no empty tokens, and
inserts exactly the surviving tokens into the set. -/
theorem c7_parse_tags_amended (ts : List (List Nat)) (data : List Nat) :
    parseTags ts data = (splitTokens data).foldl (fun acc t => insertTag t acc) ts ∧
      ∀ t ∈ splitTokens data, t ≠ [] ∧ ∀ c ∈ t, isSep c = false := by
  constructor
  · rw [parseTags, splitTokens]
    exact parseGo_eq_splitGo data ts []
  · exact fun t ht => splitGo_tokens data [] (by simp) t ht

/-- C7 amended at the segment `" a,b "`. -/
theorem c7_parse_tags_witness :
    parseTags [] [32, 97, 44, 98, 32] =
        (splitTokens [32, 97, 44, 98, 32]).foldl (fun acc t => insertTag t acc) [] ∧
      ([97] : List Nat) ≠ [] :=
  ⟨(c7_parse_tags_amended [] [32, 97, 44, 98, 32]).1,
    ((c7_parse_tags_amended [] [32, 97, 44, 98, 32]).2 [97] (by decide)).1⟩

/-- C8: no sequence of `add_tag`, `remove_tag`, `clear_tags` changes
the name parts fixed at construction: prefix and suffix are frames of
every mutation. -/
theorem c8_prefix_suffix_frame (nt : NameTag) (ops : List TagOp) :
    (ops.foldl applyOp nt).pre = nt.pre ∧ (ops.foldl applyOp nt).suf = nt.suf := by
  induction ops generalizing nt with
  | nil => exact ⟨rfl, rfl⟩
  | cons op rest ih =>
    simp only [List.foldl_cons]
    obtain ⟨h1, h2⟩ := ih (applyOp nt op)
    obtain ⟨h3, h4⟩ := applyOp_frame nt op
    exact ⟨h1.trans h3, h2.trans h4⟩

/-- C9: text conversion fails exactly when the serialized bytes are
not valid UTF-8 (validity stated independently of the decoder: the
bytes are the standard encoding of some scalar-value sequence), and on
success returns exactly the decoding of the serialized bytes. -/
theorem c9_try_into_string (nt : NameTag) :
    (tryIntoString nt = none ↔ ¬ ValidUtf8 (intoBytes nt)) ∧
      ∀ s, tryIntoString nt = some s →
        (∀ c ∈ s, ValidScalar c) ∧ utf8Encode s = intoBytes nt := by
  constructor
  · exact utf8Decode_eq_none_iff (intoBytes nt)
  · intro s hs
    exact utf8Decode_sound hs

/-- C9 at the instance holding `"hi"`. -/
theorem c9_try_into_string_witness :
    utf8Encode [104, 105] = intoBytes (⟨[104, 105], [], []⟩ : NameTag) :=
  ((c9_try_into_string ⟨[104, 105], [], []⟩).2 [104, 105] (by decide)).2

/-- C10: whenever a span is recognized it ends at the first byte that
decreases the nesting depth (the first `]`, the only depth-decreasing
byte), its opening is the nearest depth-increasing `[` before that
byte (every `[` raises the depth), everything outside the span stays
verbatim in prefix and suffix, and the repository's nested test input
keeps its outer brackets with only the innermost pair flattened. -/
theorem c10_nested_bracket_policy :
    (∀ data u l, getTagBounds data = some (u, l) →
      1 ≤ l ∧ l - 1 < data.length ∧ data.getD (l - 1) 0 = CLOSE_BRACE ∧
        CLOSE_BRACE ∉ data.take (l - 1) ∧
        (OPEN_BRACE ∈ data.take (l - 1) →
          u < l - 1 ∧ data.getD u 0 = OPEN_BRACE ∧
            OPEN_BRACE ∉ (data.take (l - 1)).drop (u + 1)) ∧
        ∀ nt, NameTag.new data = some nt → nt.pre = data.take u ∧ nt.suf = data.drop l) ∧
      (NameTag.new nestedInput).map intoBytes = some nestedOutput := by
  constructor
  · intro data u l h
    have h0 := h
    rw [getTagBounds_eq, boundsFirstClose] at h
    cases hk : firstCloseIdx data with
    | none =>
      rw [hk] at h
      cases h
    | some k =>
      rw [hk] at h
      simp only [] at h
      injection h with h9
      have hu : (lastOpenIdx (data.take k)).getD 0 = u := congrArg Prod.fst h9
      have hl : k + 1 = l := congrArg Prod.snd h9
      obtain ⟨hk1, hk2, hk3⟩ := firstCloseIdx_spec data k hk
      have hlk : l - 1 = k := by omega
      rw [hlk]
      refine ⟨by omega, hk1, hk2, hk3, ?_, ?_⟩
      · intro hm
        cases hlo : lastOpenIdx (data.take k) with
        | none => exact absurd hm ((lastOpenIdx_none_iff _).1 hlo)
        | some j =>
          rw [hlo] at hu
          simp only [Option.getD_some] at hu
          obtain ⟨hj1, hj2, hj3⟩ := lastOpenIdx_spec (data.take k) j hlo
          rw [List.length_take] at hj1
          subst hu
          refine ⟨by omega, ?_, hj3⟩
          rw [← getD_take_of_lt data k j 0 (by omega)]
          exact hj2
      · intro nt hnt
        rw [NameTag.new, h0] at hnt
        simp only [] at hnt
        cases hs : sliceRange data (u + 1) (l - 1) with
        | none =>
          rw [hs] at hnt
          cases hnt
        | some seg =>
          rw [hs] at hnt
          simp only [] at hnt
          injection hnt with hnt9
          subst hnt9
          exact ⟨rfl, rfl⟩
  · decide

/-- C10 at the nested test input: the recognized span is `(16, 27)`,
byte 26 is the first `]`, byte 16 the nearest `[` before it. -/
theorem c10_nested_witness :
    nestedInput.getD 26 0 = CLOSE_BRACE ∧ CLOSE_BRACE ∉ nestedInput.take 26 ∧
      nestedInput.getD 16 0 = OPEN_BRACE := by
  have h := c10_nested_bracket_policy.1 nestedInput 16 27 (by decide)
  exact ⟨h.2.2.1, h.2.2.2.1, (h.2.2.2.2.1 (by decide)).2.1⟩

end NametagProof
